import Mathlib

/-!
Verification development for the vivli-amr-toolkit cleaning pipeline.

The Lean definitions below are shallow embeddings of the Python functions in
`src/cleaning/atlas_clean.py`, `src/python/apply_breakpoints.py` and
`src/python/clean_and_sir.py`.  Strings are modelled as their character
lists, pandas missing values (`NaN` / `pd.NA`) as `Option`, and IEEE floats
as exact rationals (all MIC literals and breakpoints in the sources are
short decimals, and every comparison proved here compares values that the
code would store as identical floats).  Python `str.lower` / `str.upper` /
`str.strip` are modelled by their ASCII behaviour, which is exact on the
ASCII inputs all theorems below quantify over.
-/

set_option maxHeartbeats 1000000
set_option maxRecDepth 100000

namespace Vivli

/-- ASCII alphanumeric test — membership in the character class
`[0-9a-zA-Z]` whose complement runs are replaced by `ascii_snake` in
`src/cleaning/atlas_clean.py` (codepoints 48-57, 97-122, 65-90). -/
def isAlnumAscii (c : Char) : Bool :=
  (48 ≤ c.toNat && c.toNat ≤ 57) || (97 ≤ c.toNat && c.toNat ≤ 122)
    || (65 ≤ c.toNat && c.toNat ≤ 90)

/-- One pass of `re.sub(r"[^0-9a-zA-Z]+", "_", col)`: every maximal run of
non-alphanumeric characters becomes a single underscore.  The boolean flag
records whether the previous character belonged to such a run. -/
def snakeAux : Bool → List Char → List Char
  | _, [] => []
  | b, c :: rest =>
    if isAlnumAscii c then c :: snakeAux false rest
    else if b then snakeAux true rest
    else '_' :: snakeAux true rest

/-- Drop a trailing run of characters satisfying `p` (the right half of
Python `str.strip`). -/
def dropTrailing (p : Char → Bool) : List Char → List Char
  | [] => []
  | c :: rest =>
    match dropTrailing p rest with
    | [] => if p c then [] else [c]
    | r => c :: r

/-- Python `str.strip(chars)`: remove leading and trailing characters
satisfying `p`. -/
def stripBoth (p : Char → Bool) (l : List Char) : List Char :=
  dropTrailing p (l.dropWhile p)

/-- Underscore test, for `str.strip("_")`. -/
def isUnd (c : Char) : Bool := c == '_'

/-- The six ASCII whitespace characters stripped by Python `str.strip()`. -/
def pyIsSpace (c : Char) : Bool :=
  c == ' ' || c == '\t' || c == '\n' || c == '\r' || c == '\x0b' || c == '\x0c'

/-- Model of `ascii_snake` (src/cleaning/atlas_clean.py lines 49-53):
NFKD-decompose and encode("ascii","ignore") — modelled as dropping
non-ASCII characters, which is exact on ASCII input since ASCII characters
are NFKD-fixed — then replace every maximal run of `[^0-9a-zA-Z]` by one
underscore, strip leading/trailing underscores, and lowercase. -/
def ascii_snake (s : String) : String :=
  ⟨(stripBoth isUnd (snakeAux false (s.data.filter (fun c => c.toNat < 128)))).map Char.toLower⟩

/-- The eight strings matched at the end of a key by the qualifier regex
`_\(?(clsi|eucast)\)?$` of `_clean_key` (the two parentheses are optional
independently of each other). -/
def qualSuffixes : List String :=
  ["_clsi", "_(clsi", "_clsi)", "_(clsi)", "_eucast", "_(eucast", "_eucast)", "_(eucast)"]

/-- Model of `re.sub(r"_\(?(clsi|eucast)\)?$", "", text)`: remove one
trailing `_clsi` / `_eucast` qualifier, possibly parenthesised. -/
def stripQualifier (s : String) : String :=
  match qualSuffixes.find? (fun q => q.data.isSuffixOf s.data) with
  | some q => ⟨s.data.take (s.data.length - q.data.length)⟩
  | none => s

/-- Model of `_clean_key` (src/python/apply_breakpoints.py lines 57-64):
`str(text).strip().lower().replace(" ", "_")` followed by stripping one
trailing `_clsi`/`_eucast` qualifier. -/
def clean_key (s : String) : String :=
  stripQualifier
    ⟨(stripBoth pyIsSpace s.data).map (fun c =>
        let d := Char.toLower c
        if d == ' ' then '_' else d)⟩

/-- No two adjacent separator (non-alphanumeric) characters. -/
def noAdjSep : List Char → Bool
  | [] => true
  | [_] => true
  | a :: b :: rest => (isAlnumAscii a || isAlnumAscii b) && noAdjSep (b :: rest)

/-- The first character, when present, is alphanumeric. -/
def headAlnum : List Char → Bool
  | [] => true
  | c :: _ => isAlnumAscii c

/-- The last character, when present, is alphanumeric. -/
def lastAlnum (l : List Char) : Bool :=
  match l.getLast? with
  | none => true
  | some c => isAlnumAscii c

/-- The character map `ascii_snake` applies inside a well-separated
string: alphanumerics stay, single separators become underscores. -/
def subChar (c : Char) : Char :=
  if isAlnumAscii c then c else '_'

example : ascii_snake "A-b  c" = "a_b_c" := by decide
example : ascii_snake "_Species_" = "species" := by decide
example : clean_key " Escherichia coli " = "escherichia_coli" := by decide
example : clean_key "Amikacin (EUCAST)" = "amikacin" := by decide
example : clean_key "amikacin_eucast" = "amikacin" := by decide
example : clean_key "a-b" = "a-b" := by decide
example : stripQualifier (ascii_snake "a-b") = "a_b" := by decide

/-! Breakpoint classifiers. -/

/-- The `eucast_table` of src/python/apply_breakpoints.py: each entry maps an
(organism_key, drug_key) pair to its `{"s": susceptible_max, "r":
resistant_min}` breakpoints in mg/L. -/
def eucast_table : List ((String × String) × ℚ × ℚ) :=
  [ (("escherichia_coli",       "amikacin"),       (8, 16)),
    (("escherichia_coli",       "cefepime"),       (1, 4)),
    (("escherichia_coli",       "levofloxacin"),   (0.5, 1)),
    (("escherichia_coli",       "tigecycline"),    (0.5, 0.5)),
    (("klebsiella_pneumoniae",  "levofloxacin"),   (0.5, 1)),
    (("klebsiella_pneumoniae",  "tigecycline"),    (0.5, 0.5)),
    (("pseudomonas_aeruginosa", "amikacin"),       (8, 16)),
    (("pseudomonas_aeruginosa", "levofloxacin"),   (0.5, 1)),
    (("pseudomonas_aeruginosa", "tigecycline"),    (0.5, 0.5)),
    (("staphylococcus_aureus",  "vancomycin"),     (2, 2)),
    (("staphylococcus_aureus",  "levofloxacin"),   (1, 2)),
    (("staphylococcus_aureus",  "tigecycline"),    (0.25, 0.5)),
    (("enterococcus_faecalis",  "tigecycline"),    (0.25, 0.25)),
    (("candida_albicans",       "anidulafungin"),  (0.03, 0.06)),
    (("candida_albicans",       "caspofungin"),    (0.06, 0.12)),
    (("candida_albicans",       "micafungin"),     (0.03, 0.06)),
    (("candida_albicans",       "fluconazole"),    (2, 4)),
    (("candida_albicans",       "itraconazole"),   (0.125, 0.25)),
    (("candida_albicans",       "voriconazole"),   (0.125, 0.25)),
    (("candida_albicans",       "posaconazole"),   (0.125, 0.25)),
    (("candida_glabrata",       "fluconazole"),    (32, 32)),
    (("candida_glabrata",       "anidulafungin"),  (0.03, 0.06)),
    (("candida_glabrata",       "caspofungin"),    (0.06, 0.12)),
    (("candida_glabrata",       "micafungin"),     (0.03, 0.06)) ]

/-- Model of `re.sub(r"[<>]=?", "", s)`: delete every `<` or `>` together
with an `=` immediately following it. -/
def stripIneq : List Char → List Char
  | [] => []
  | [c] => if c == '<' || c == '>' then [] else [c]
  | c :: d :: rest =>
    if c == '<' || c == '>' then
      if d == '=' then stripIneq rest else stripIneq (d :: rest)
    else c :: stripIneq (d :: rest)

/-- Numeric value of an ASCII digit. -/
def digitVal (c : Char) : ℚ := ((c.toNat - 48 : ℕ) : ℚ)

/-- Value of the integer part of a decimal numeral. -/
def natPart (l : List Char) : ℚ := l.foldl (fun a c => 10 * a + digitVal c) 0

/-- Value of the fractional part of a decimal numeral. -/
def fracPart (l : List Char) : ℚ := l.foldr (fun c a => (digitVal c + a) / 10) 0

/-- Model of Python `float(s)` on unsigned plain decimal numerals: digits
with at most one dot and at least one digit parse to their exact value,
anything else (in particular a bare "." or a string with two dots) raises
`ValueError`, modelled as `none`.  Signs, exponents and surrounding
whitespace never occur on the code paths proved about below. -/
def pyFloat? (s : String) : Option ℚ :=
  let l := s.data
  if l.all (fun c => c.isDigit || c == '.') && l.any Char.isDigit
      && (l.filter (fun c => c == '.')).length ≤ 1 then
    some (natPart (l.takeWhile (fun c => c != '.'))
          + fracPart ((l.dropWhile (fun c => c != '.')).drop 1))
  else none

example : pyFloat? "0.5" = some (1/2) := by
  simp [pyFloat?, natPart, fracPart, digitVal]; norm_num
example : pyFloat? "32" = some 32 := by
  simp [pyFloat?, natPart, fracPart, digitVal]; norm_num
example : pyFloat? "1.2.3" = none := by simp [pyFloat?]
example : pyFloat? "." = none := by simp [pyFloat?]

/-- Breakpoint lookup of `apply_eucast`: both keys are passed through
`_clean_key` and looked up in `eucast_table`. -/
def eucastLookup (org drug : String) : Option (ℚ × ℚ) :=
  (eucast_table.find? (fun e => e.1 == (clean_key org, clean_key drug))).map (fun e => e.2)

/-- Core of `apply_eucast` (src/python/apply_breakpoints.py lines 66-91)
after the MIC has been coerced to a float: `None` for a missing/unparseable
MIC or a missing breakpoint entry, otherwise `S` if `mic <= s`, `R` if
`mic > r`, else `I`. -/
def apply_eucast_core (mic : Option ℚ) (org drug : String) : Option String :=
  match mic with
  | none => none
  | some m =>
    match eucastLookup org drug with
    | none => none
    | some (s, r) => some (if m ≤ s then "S" else if r < m then "R" else "I")

/-- Model of `apply_eucast` on a string MIC such as "<=0.5" or ">32":
`float(re.sub(r"[<>]=?", "", str(mic)))`, then classify. -/
def apply_eucast_str (mic org drug : String) : Option String :=
  apply_eucast_core (pyFloat? ⟨stripIneq mic.data⟩) org drug

/-- Model of `apply_eucast` on a numeric MIC: for a float `x`,
`float(re.sub(r"[<>]=?", "", str(x)))` is `x` itself, so the parsing step
is the identity. -/
def apply_eucast_num (mic : ℚ) (org drug : String) : Option String :=
  apply_eucast_core (some mic) org drug

example : eucastLookup "Escherichia coli" "amikacin" = some (8, 16) := by rfl
example : apply_eucast_num 2 "Escherichia coli" "amikacin" = some "S" := by
  have h : eucastLookup "Escherichia coli" "amikacin" = some (8, 16) := rfl
  rw [apply_eucast_num, apply_eucast_core, h]; norm_num
example : apply_eucast_num 16 "Escherichia coli" "amikacin" = some "I" := by
  have h : eucastLookup "Escherichia coli" "amikacin" = some (8, 16) := rfl
  rw [apply_eucast_num, apply_eucast_core, h]; norm_num

/-- Model of `_classify` inside `assign_sir` (src/python/clean_and_sir.py
lines 114-121): `U` when the MIC or either breakpoint is missing, else `S`
if `mic <= s_max`, `R` if `mic >= r_min` (inclusive), else `I`. -/
def sir_classify (mic s_max r_min : Option ℚ) : String :=
  match mic, s_max, r_min with
  | some m, some s, some r => if m ≤ s then "S" else if r ≤ m then "R" else "I"
  | _, _, _ => "U"

example : sir_classify (some 2) (some 1) (some 2) = "R" := by
  rw [sir_classify]; norm_num

/-! Flag canonicalisation (steps 8-9 of `clean_atlas`). -/

/-- The `FLAG_MAP` synonym table of src/cleaning/atlas_clean.py lines 39-44;
`"U"` maps to `pd.NA`, modelled as `none`. -/
def FLAG_MAP : List (String × Option String) :=
  [("S", some "S"), ("SUSCEPTIBLE", some "S"),
   ("R", some "R"), ("RESISTANT", some "R"), ("NS", some "R"),
   ("I", some "I"), ("INTERMEDIATE", some "I"),
   ("U", none)]

/-- Step 8 normalisation `astype("string").str.strip().str.upper()` on one
cell (missing stays missing). -/
def normFlag (v : Option String) : Option String :=
  v.map (fun s => ⟨(stripBoth pyIsSpace s.data).map Char.toUpper⟩)

/-- Python dict lookup used by `Series.map(FLAG_MAP)`: keys absent from the
dict map to missing. -/
def flagLookup (s : String) : Option String :=
  match FLAG_MAP.find? (fun kv => kv.1 == s) with
  | some kv => kv.2
  | none => none

/-- `Series.map(FLAG_MAP)` on one cell. -/
def mapFlag (v : Option String) : Option String := v.bind flagLookup

/-- Membership in `set(FLAG_MAP)`, the key set of the synonym table. -/
def isKnownFlag (s : String) : Bool := (FLAG_MAP.map Prod.fst).contains s

/-- The `unknown` set of step 8: the distinct non-missing normalised tokens
outside `FLAG_MAP`; the workbook is rejected when it is non-empty. -/
def unknown_flags (col : List (Option String)) : List String :=
  ((col.filterMap id).filter (fun s => !(isKnownFlag s))).dedup

/-- Step 9, `sir_flag.map({"R": 1, "S": 0})` on one cell: any value other
than `R`/`S` (namely `I` or missing) maps to missing. -/
def resistantOf (flag : Option String) : Option ℤ :=
  flag.bind (fun s => if s == "R" then some 1 else if s == "S" then some 0 else none)

/-! MIC parsing (`parse_mic`, src/cleaning/atlas_clean.py lines 56-63). -/

/-- First maximal run of `[0-9.]` characters of a string: the semantics of
`.str.extract(r"([0-9.]+)")` on one cell (`none` when no such character
occurs, which pandas renders as missing). -/
def extractNumRun : List Char → Option (List Char)
  | [] => none
  | c :: rest =>
    if c.isDigit || c == '.' then
      some (c :: rest.takeWhile (fun d => d.isDigit || d == '.'))
    else extractNumRun rest

/-- Comma-to-dot replacement followed by extraction, on one cell. -/
def parse_mic_extract (v : Option String) : Option String :=
  v.bind (fun s =>
    (extractNumRun (s.data.map (fun c => if c == ',' then '.' else c))).map
      (fun l => (⟨l⟩ : String)))

/-- Model of `parse_mic`: replace the decimal comma, extract the first
`[0-9.]+` run, cast to float64.  The final `.astype("float64")` raises
`ValueError` — modelled as `Except.error` carrying the offending extracted
string — whenever some extracted run is not parseable as a float (for
example a run with two dots, or a bare dot). -/
def parse_mic (col : List (Option String)) : Except String (List (Option ℚ)) :=
  match (col.filterMap parse_mic_extract).find? (fun s => (pyFloat? s).isNone) with
  | some bad => .error bad
  | none => .ok (col.map (fun v => (parse_mic_extract v).bind pyFloat?))

example : parse_mic [some ">=0,5", none, some "abc"] = .ok [some (1/2), none, none] := by
  simp [parse_mic, parse_mic_extract, extractNumRun, pyFloat?, natPart, fracPart, digitVal]
  norm_num

/-! Outlier filtering (`iqr_trim`, src/cleaning/atlas_clean.py lines 66-70). -/

/-- Insertion into a sorted list of rationals. -/
def insertSorted (x : ℚ) : List ℚ → List ℚ
  | [] => [x]
  | y :: ys => if x ≤ y then x :: y :: ys else y :: insertSorted x ys

/-- Sorting, as performed internally by `Series.quantile`. -/
def sortRat (l : List ℚ) : List ℚ := l.foldr insertSorted []

/-- Largest index `i ≤ n` with `(i : ℚ) ≤ pos`: the floor of `pos` clamped
to `[0, n]`, which for `pos = q*(len-1)` with `0 ≤ q ≤ 1` is exactly the
lower interpolation index used by pandas. -/
def floorIdx (pos : ℚ) : ℕ → ℕ
  | 0 => 0
  | n+1 => if ((n+1 : ℕ) : ℚ) ≤ pos then n+1 else floorIdx pos n

/-- pandas `Series.quantile(q)` with the default linear interpolation over
the non-missing values: with sorted values `s` of length `n`, position
`pos = q*(n-1)`, `i = ⌊pos⌋`, the result is `s[i] + (pos-i)*(s[i+1]-s[i])`
(`s[i]` when `i` is the last index); `none` on an empty list (all-NaN
input, where pandas returns NaN). -/
def pyQuantile (l : List ℚ) (q : ℚ) : Option ℚ :=
  match sortRat l with
  | [] => none
  | s =>
    let pos : ℚ := q * ((s.length : ℚ) - 1)
    let i : ℕ := floorIdx pos (s.length - 1)
    match s[i]?, s[i+1]? with
    | some a, some b => some (a + (pos - (i : ℚ)) * (b - a))
    | some a, none => some a
    | none, _ => none

/-- Tukey fences of a group: `[Q1 - 1.5*(Q3-Q1), Q3 + 1.5*(Q3-Q1)]` over
the group's non-missing values; `none` when the group has no values. -/
def tukeyBounds (g : List (Option ℚ)) : Option (ℚ × ℚ) :=
  match pyQuantile (g.filterMap id) (1/4), pyQuantile (g.filterMap id) (3/4) with
  | some q1, some q3 => some (q1 - 1.5 * (q3 - q1), q3 + 1.5 * (q3 - q1))
  | _, _ => none

/-- `group.where(group.between(lo, hi))` on one cell: values outside the
closed interval become missing; with missing bounds (all-NaN group)
`between` is False and every value becomes missing. -/
def trimVal (bounds : Option (ℚ × ℚ)) (v : Option ℚ) : Option ℚ :=
  match v with
  | none => none
  | some x =>
    match bounds with
    | some (lo, hi) => if lo ≤ x ∧ x ≤ hi then some x else none
    | none => none

/-- Model of `iqr_trim`: quantiles of the group, then `where(between)`. -/
def iqr_trim (g : List (Option ℚ)) : List (Option ℚ) :=
  g.map (trimVal (tukeyBounds g))

/-! The wide table, the reshape (step 7) and the pipeline (steps 6-11). -/

/-- One row of the wide workbook after header normalisation and MIC
parsing: identity fields, the parsed MIC cell per MIC column (in the order
of `micCols`) and the raw flag cell per flag column (in the order of
`flagCols`). -/
structure WideRow where
  isolate_id : String
  country : Option String
  year : Int
  micVals : List (Option ℚ)
  flagVals : List (Option String)
deriving DecidableEq

/-- The wide table together with the classified MIC / flag column sets. -/
structure WideTable where
  micCols : List String
  flagCols : List String
  rows : List WideRow
deriving DecidableEq

/-- One row of `mic_long` (step 7a). -/
structure MicObs where
  isolate_id : String
  country : Option String
  year : Int
  drug : String
  mic_value : Option ℚ
deriving DecidableEq

/-- One row of `flag_long[["isolate_id", "drug", "sir_flag"]]` (step 7b). -/
structure FlagObs where
  isolate_id : String
  drug : String
  sir_flag : Option String
deriving DecidableEq

/-- One row of the joined long table `df_long` (step 7c). -/
structure LongRow where
  isolate_id : String
  country : Option String
  year : Int
  drug : String
  mic_value : Option ℚ
  sir_flag : Option String
deriving DecidableEq

/-- One row of the final cleaned table (after steps 8-11). -/
structure CleanRow where
  isolate_id : String
  country : Option String
  year : Int
  drug : String
  mic_value : Option ℚ
  sir_flag : Option String
  resistant : Option ℤ
deriving DecidableEq

/-- The `FLAG_SUFFIXES` of src/cleaning/atlas_clean.py line 30. -/
def FLAG_SUFFIXES : List String := ["_i", "_flag", "_interpretation"]

/-- Derivation of `drug` from `drug_flag` by
`.str.replace(r"(_i|_flag|_interpretation)$", "")`: at most one of the
three suffixes can terminate a string, and the anchored regex removes
exactly that suffix. -/
def stripFlagSuffix (s : String) : String :=
  if "_i".data.isSuffixOf s.data then ⟨s.data.take (s.data.length - 2)⟩
  else if "_flag".data.isSuffixOf s.data then ⟨s.data.take (s.data.length - 5)⟩
  else if "_interpretation".data.isSuffixOf s.data then ⟨s.data.take (s.data.length - 15)⟩
  else s

example : stripFlagSuffix "drug_a_i" = "drug_a" := by decide
example : stripFlagSuffix "drug_a_flag" = "drug_a" := by decide

/-- Step 7a: melt the MIC columns against the identity columns. -/
def meltMic (t : WideTable) : List MicObs :=
  t.rows.flatMap (fun r =>
    (t.micCols.zip r.micVals).map (fun cv =>
      { isolate_id := r.isolate_id, country := r.country, year := r.year,
        drug := cv.1, mic_value := cv.2 }))

/-- Step 7b: melt the flag columns and strip the flag suffix from the
column name to recover the drug key. -/
def meltFlag (t : WideTable) : List FlagObs :=
  t.rows.flatMap (fun r =>
    (t.flagCols.zip r.flagVals).map (fun cv =>
      { isolate_id := r.isolate_id, drug := stripFlagSuffix cv.1, sir_flag := cv.2 }))

/-- The join predicate of `merge(on=["isolate_id", "drug"])`. -/
def matchKey (m : MicObs) (f : FlagObs) : Bool :=
  f.isolate_id == m.isolate_id && f.drug == m.drug

/-- The rows a single left row contributes to a left join: one row per
matching right row, or a single row with a missing flag when nothing
matches. -/
def joinOne (m : MicObs) (flags : List FlagObs) : List LongRow :=
  match flags.filter (matchKey m) with
  | [] => [{ isolate_id := m.isolate_id, country := m.country, year := m.year,
             drug := m.drug, mic_value := m.mic_value, sir_flag := none }]
  | fs => fs.map (fun f =>
      { isolate_id := m.isolate_id, country := m.country, year := m.year,
        drug := m.drug, mic_value := m.mic_value, sir_flag := f.sir_flag })

/-- Step 7c: `mic_long.merge(flag_long[...], on=["isolate_id", "drug"],
how="left")`. -/
def leftJoinFlags (mics : List MicObs) (flags : List FlagObs) : List LongRow :=
  mics.flatMap (fun m => joinOne m flags)

/-- The two fatal errors of `clean_atlas`: no MIC columns detected (step
4), and unknown flag tokens (step 8, carrying the offending set). -/
inductive CleanError where
  | noMicColumns : CleanError
  | unknownFlags : List String → CleanError
deriving DecidableEq

/-- Step 6, `df[df["country"].notna()]`. -/
def countryFilter (t : WideTable) : WideTable :=
  { t with rows := t.rows.filter (fun r => r.country.isSome) }

/-- The values of the (drug, year) group a row belongs to in step 10. -/
def groupVals (rows : List CleanRow) (drug : String) (year : Int) : List (Option ℚ) :=
  (rows.filter (fun r => r.drug == drug && r.year == year)).map (fun r => r.mic_value)

/-- Step 7 applied after the country filter: the joined long table. -/
def joinedOf (t : WideTable) : List LongRow :=
  leftJoinFlags (meltMic (countryFilter t)) (meltFlag (countryFilter t))

/-- Step 8's normalisation applied to the joined table. -/
def normedOf (t : WideTable) : List LongRow :=
  (joinedOf t).map (fun row => { row with sir_flag := normFlag row.sir_flag })

/-- Steps 8 (mapping through `FLAG_MAP`) and 9 (`resistant`). -/
def labelledOf (t : WideTable) : List CleanRow :=
  (normedOf t).map (fun row =>
    { isolate_id := row.isolate_id, country := row.country, year := row.year,
      drug := row.drug, mic_value := row.mic_value,
      sir_flag := mapFlag row.sir_flag, resistant := resistantOf (mapFlag row.sir_flag) })

/-- Step 10: null every MIC value outside the Tukey fence of its
(drug, year) group. -/
def trimmedOf (t : WideTable) : List CleanRow :=
  (labelledOf t).map (fun r =>
    { r with mic_value :=
        trimVal (tukeyBounds (groupVals (labelledOf t) r.drug r.year)) r.mic_value })

/-- Model of `clean_atlas` steps 4 and 6-11 (src/cleaning/atlas_clean.py
lines 107-193), starting from the wide table with its classified column
sets and already-parsed MIC values (step 5, `parse_mic`, is modelled
separately): abort when no MIC column was classified; drop rows without a
country; melt and left-join; normalise flags and abort on tokens outside
`FLAG_MAP`; map flags and derive `resistant`; null MIC values outside
their (drug, year) Tukey fence and drop rows with missing MIC. -/
def clean_pipeline (t : WideTable) : Except CleanError (List CleanRow) :=
  if t.micCols.isEmpty then .error .noMicColumns
  else
    match unknown_flags ((normedOf t).map (fun row => row.sir_flag)) with
    | [] => .ok ((trimmedOf t).filter (fun r => r.mic_value.isSome))
    | unk => .error (.unknownFlags unk)

/-- A one-row workbook whose single flag cell holds the literal token
"MAYBE". -/
def maybeTable : WideTable :=
  { micCols := ["drug_a"], flagCols := ["drug_a_i"],
    rows := [{ isolate_id := "1", country := some "US", year := 2020,
               micVals := [none], flagVals := [some "MAYBE"] }] }

/-- A one-row workbook with one MIC column and no flag columns. -/
def noFlagTable : WideTable :=
  { micCols := ["drug_a"], flagCols := [],
    rows := [{ isolate_id := "1", country := some "US", year := 2020,
               micVals := [some 2], flagVals := [] }] }

/-- The two-row end-to-end workbook of spec item 8.7: one MIC column with
values 2 and 16, one paired flag column with values "S" and "Resistant". -/
def cleanEx : WideTable :=
  { micCols := ["drug_a"], flagCols := ["drug_a_i"],
    rows := [{ isolate_id := "1", country := some "US", year := 2020,
               micVals := [some 2], flagVals := [some "S"] },
             { isolate_id := "2", country := some "US", year := 2020,
               micVals := [some 16], flagVals := [some "Resistant"] }] }

/-- The first output row of `clean_pipeline cleanEx`. -/
def cleanExRow : CleanRow :=
  { isolate_id := "1", country := some "US", year := 2020,
    drug := "drug_a", mic_value := some 2, sir_flag := some "S", resistant := some 0 }

/-! Claim C1. -/

/-- C1, counterexample: the `assign_sir` classifier variant of
src/python/clean_and_sir.py classifies a MIC equal to `resistant_min` as
`R`, not `I` (here `mic = r_min = 2` and `s_max = 1`), so the strict
greater-than boundary claimed for every classifier variant fails on this
variant. -/
theorem C1_counterexample :
    sir_classify (some 2) (some 1) (some 2) = "R" ∧
      sir_classify (some 2) (some 1) (some 2) ≠ "I" := by
  have h : sir_classify (some 2) (some 1) (some 2) = "R" := by
    rw [sir_classify]; norm_num
  exact ⟨h, by rw [h]; decide⟩

/-- C1 (amended): for every key held by the breakpoint table,
`apply_eucast` returns exactly one of S, I, R, with `S ↔ mic ≤ s_max`,
`R ↔ mic > r_min` (strict), `I` otherwise, and in particular
`mic = r_min > s_max` yields `I`; the `assign_sir` variant of
clean_and_sir.py instead uses the inclusive rule `mic ≥ r_min → R`, so
`mic = r_min` yields `R` there. -/
theorem C1_breakpoint_trichotomy :
    (∀ (m s r : ℚ) (org drug : String), eucastLookup org drug = some (s, r) →
      (apply_eucast_num m org drug = some "S" ∨ apply_eucast_num m org drug = some "I" ∨
          apply_eucast_num m org drug = some "R")
        ∧ (apply_eucast_num m org drug = some "S" ↔ m ≤ s)
        ∧ (apply_eucast_num m org drug = some "R" ↔ s < m ∧ r < m)
        ∧ (apply_eucast_num m org drug = some "I" ↔ s < m ∧ m ≤ r)
        ∧ (m = r → s < m → apply_eucast_num m org drug = some "I"))
    ∧ (∀ m s r : ℚ, sir_classify (some m) (some s) (some r) =
        if m ≤ s then "S" else if r ≤ m then "R" else "I") := by
  constructor
  · intro m s r org drug h
    rw [apply_eucast_num]
    simp only [apply_eucast_core, h]
    by_cases h1 : m ≤ s
    · rw [if_pos h1]
      refine ⟨Or.inl rfl, iff_of_true rfl h1, ?_, ?_, ?_⟩
      · exact iff_of_false (by decide) (fun hc => absurd hc.1 (not_lt.mpr h1))
      · exact iff_of_false (by decide) (fun hc => absurd hc.1 (not_lt.mpr h1))
      · exact fun _ hc => absurd hc (not_lt.mpr h1)
    · rw [if_neg h1]
      have hsm : s < m := not_le.mp h1
      by_cases h2 : r < m
      · rw [if_pos h2]
        refine ⟨Or.inr (Or.inr rfl), iff_of_false (by decide) h1,
          iff_of_true rfl ⟨hsm, h2⟩, ?_, ?_⟩
        · exact iff_of_false (by decide) (fun hc => absurd h2 (not_lt.mpr hc.2))
        · intro hm _
          exact absurd h2 (by rw [hm]; exact lt_irrefl r)
      · rw [if_neg h2]
        have hmr : m ≤ r := not_lt.mp h2
        exact ⟨Or.inr (Or.inl rfl), iff_of_false (by decide) h1,
          iff_of_false (by decide) (fun hc => absurd hc.2 h2),
          iff_of_true rfl ⟨hsm, hmr⟩, fun _ _ => rfl⟩
  · intro m s r
    rfl

/-- Witness for C1: the key (Escherichia coli, amikacin) is in the table
with breakpoints (8, 16), and the boundary MIC 16 = r_min is classified I
by `apply_eucast`. -/
theorem C1_breakpoint_trichotomy_witness :
    eucastLookup "Escherichia coli" "amikacin" = some (8, 16) ∧
      apply_eucast_num 16 "Escherichia coli" "amikacin" = some "I" := by
  have h : eucastLookup "Escherichia coli" "amikacin" = some (8, 16) := rfl
  exact ⟨h, (C1_breakpoint_trichotomy.1 16 8 16 "Escherichia coli" "amikacin" h).2.2.2.2
    rfl (by norm_num)⟩

/-! Claim C10. -/

/-- Characters of a string accepted by the float parser are digits or
dots. -/
theorem pyFloat_chars {s : String} {x : ℚ} (h : pyFloat? s = some x) :
    ∀ c ∈ s.data, (c.isDigit || c == '.') = true := by
  rw [pyFloat?] at h
  split_ifs at h with hc
  simp only [Bool.and_eq_true] at hc
  exact List.all_eq_true.mp hc.1.1

/-- A string accepted by the float parser is non-empty. -/
theorem pyFloat_ne_nil {s : String} {x : ℚ} (h : pyFloat? s = some x) :
    s.data ≠ [] := by
  rw [pyFloat?] at h
  split_ifs at h with hc
  simp only [Bool.and_eq_true] at hc
  obtain ⟨c, hcm, -⟩ := List.any_eq_true.mp hc.1.2
  exact List.ne_nil_of_mem hcm

/-- A digit-or-dot character is not an inequality sign. -/
theorem digitDot_not_ineq {c : Char} (h : (c.isDigit || c == '.') = true) :
    (c == '<' || c == '>') = false := by
  rcases Bool.or_eq_true_iff.mp h with hd | he
  · have h1 : c ≠ '<' := fun he2 => by rw [he2] at hd; exact absurd hd (by decide)
    have h2 : c ≠ '>' := fun he2 => by rw [he2] at hd; exact absurd hd (by decide)
    simp [h1, h2]
  · have hc : c = '.' := by simpa using he
    subst hc; decide

/-- A digit-or-dot character is not an equals sign. -/
theorem digitDot_not_eq_sign {c : Char} (h : (c.isDigit || c == '.') = true) :
    (c == '=') = false := by
  rcases Bool.or_eq_true_iff.mp h with hd | he
  · have h1 : c ≠ '=' := fun he2 => by rw [he2] at hd; exact absurd hd (by decide)
    simp [h1]
  · have hc : c = '.' := by simpa using he
    subst hc; decide

/-- The inequality stripper is the identity on strings without `<`/`>`. -/
theorem stripIneq_eq_self : ∀ {l : List Char},
    (∀ c ∈ l, (c == '<' || c == '>') = false) → stripIneq l = l
  | [], _ => rfl
  | [c], h => by
    rw [stripIneq, if_neg (by simp [h c (List.mem_singleton_self c)])]
  | c :: d :: rest, h => by
    rw [stripIneq, if_neg (by simp [h c (List.mem_cons_self c (d :: rest))])]
    rw [stripIneq_eq_self (fun e he => h e (List.mem_cons_of_mem c he))]

/-- C10: the breakpoint classifier is invariant under inequality-prefixed
string input — for every numeral string `s` with value `x` and every
prefix among `<`, `<=`, `>`, `>=`, `apply_eucast` on the prefixed string
equals `apply_eucast` on the number `x`. -/
theorem C10_ineq_invariance (p s org drug : String) (x : ℚ)
    (hp : p = "<" ∨ p = "<=" ∨ p = ">" ∨ p = ">=")
    (hs : pyFloat? s = some x) :
    apply_eucast_str (p ++ s) org drug = apply_eucast_num x org drug := by
  have hchars : ∀ c ∈ s.data, (c == '<' || c == '>') = false :=
    fun c hc => digitDot_not_ineq (pyFloat_chars hs c hc)
  have hself : stripIneq s.data = s.data := stripIneq_eq_self hchars
  have hstrip : stripIneq ((p ++ s).data) = s.data := by
    obtain ⟨d, rest, hd⟩ : ∃ d rest, s.data = d :: rest := by
      cases hsd : s.data with
      | nil => exact absurd hsd (pyFloat_ne_nil hs)
      | cons d rest => exact ⟨d, rest, rfl⟩
    have hdne : (d == '=') = false :=
      digitDot_not_eq_sign (pyFloat_chars hs d (hd ▸ List.mem_cons_self d rest))
    rcases hp with h | h | h | h <;> subst h
    · have he : ("<" ++ s).data = '<' :: d :: rest := by
        show '<' :: s.data = _
        rw [hd]
      rw [he, stripIneq, if_pos (by decide), if_neg (by simp [hdne]), ← hd, hself]
    · have he : ("<=" ++ s).data = '<' :: '=' :: s.data := rfl
      rw [he]
      cases hsd : s.data with
      | nil => exact absurd hsd (pyFloat_ne_nil hs)
      | cons e rest2 =>
        rw [stripIneq, if_pos (by decide), if_pos (by decide), ← hsd, hself]
    · have he : (">" ++ s).data = '>' :: d :: rest := by
        show '>' :: s.data = _
        rw [hd]
      rw [he, stripIneq, if_pos (by decide), if_neg (by simp [hdne]), ← hd, hself]
    · have he : (">=" ++ s).data = '>' :: '=' :: s.data := rfl
      rw [he]
      cases hsd : s.data with
      | nil => exact absurd hsd (pyFloat_ne_nil hs)
      | cons e rest2 =>
        rw [stripIneq, if_pos (by decide), if_pos (by decide), ← hsd, hself]
  rw [apply_eucast_str, hstrip]
  have hmk : (⟨s.data⟩ : String) = s := rfl
  rw [hmk, hs]
  rfl

/-- Witness for C10 at the prefix `<=`, the numeral `0.5` and the key
(Escherichia coli, tigecycline). -/
theorem C10_ineq_invariance_witness :
    pyFloat? "0.5" = some (1/2) ∧
      apply_eucast_str "<=0.5" "Escherichia coli" "tigecycline" =
        apply_eucast_num (1/2) "Escherichia coli" "tigecycline" := by
  have h : pyFloat? "0.5" = some (1/2) := by
    simp [pyFloat?, natPart, fracPart, digitVal]; norm_num
  exact ⟨h, C10_ineq_invariance "<=" "0.5" "Escherichia coli" "tigecycline" (1/2)
    (Or.inr (Or.inl rfl)) h⟩

/-! Claim C4. -/

/-- C4: `parse_mic` is not total — on a column containing the value
"1.2.3" the extraction regex `[0-9.]+` yields the non-float substring
"1.2.3" and the final `astype("float64")` raises a `ValueError` instead of
producing a missing value, contradicting the claim that no input raises. -/
theorem C4_parse_mic_raises :
    parse_mic [some "1.2.3"] = .error "1.2.3" := by
  with_unfolding_all rfl

/-! Claim C9. -/

/-- C9: on the group [1, 2, 2, 3, 100] the quartiles are Q1 = 2 and
Q3 = 3, the Tukey fence is [0.5, 4.5], the value 100 becomes missing and
every other value is retained unchanged; in general a present value is
retained exactly when it lies inside the fence derived from its group's
quartiles. -/
theorem C9_iqr_trim :
    (pyQuantile [1, 2, 2, 3, 100] (1/4) = some 2
      ∧ pyQuantile [1, 2, 2, 3, 100] (3/4) = some 3
      ∧ tukeyBounds [some 1, some 2, some 2, some 3, some 100] = some (0.5, 4.5)
      ∧ iqr_trim [some 1, some 2, some 2, some 3, some 100]
          = [some 1, some 2, some 2, some 3, none])
    ∧ ∀ (g : List (Option ℚ)) (q1 q3 : ℚ),
        pyQuantile (g.filterMap id) (1/4) = some q1 →
        pyQuantile (g.filterMap id) (3/4) = some q3 →
        ∀ (i : ℕ) (x : ℚ), g[i]? = some (some x) →
          ((iqr_trim g)[i]? = some (some x) ↔
            q1 - 1.5 * (q3 - q1) ≤ x ∧ x ≤ q3 + 1.5 * (q3 - q1))
          ∧ ((iqr_trim g)[i]? = some none ↔
            ¬(q1 - 1.5 * (q3 - q1) ≤ x ∧ x ≤ q3 + 1.5 * (q3 - q1))) := by
  constructor
  · refine ⟨?_, ?_, ?_, ?_⟩ <;> with_unfolding_all decide
  · intro g q1 q3 hq1 hq2 i x hgi
    have hb : tukeyBounds g = some (q1 - 1.5 * (q3 - q1), q3 + 1.5 * (q3 - q1)) := by
      rw [tukeyBounds, hq1, hq2]
    have hmap : (iqr_trim g)[i]? = (g[i]?).map (trimVal (tukeyBounds g)) := by
      rw [iqr_trim, List.getElem?_map]
    rw [hmap, hgi, hb]
    simp only [Option.map_some', trimVal]
    by_cases hc : q1 - 1.5 * (q3 - q1) ≤ x ∧ x ≤ q3 + 1.5 * (q3 - q1)
    · rw [if_pos hc]
      exact ⟨iff_of_true rfl hc, iff_of_false (by simp) (fun hn => hn hc)⟩
    · rw [if_neg hc]
      exact ⟨iff_of_false (by simp) hc, iff_of_true rfl hc⟩

/-- Witness for C9's general part at the group [1, 2, 2, 3, 100], index 4
(the value 100, outside the fence [0.5, 4.5]). -/
theorem C9_iqr_trim_witness :
    (iqr_trim [some 1, some 2, some 2, some 3, some 100])[4]? = some none := by
  have h := (C9_iqr_trim.2 [some 1, some 2, some 2, some 3, some 100] 2 3
    C9_iqr_trim.1.1 C9_iqr_trim.1.2.1 4 100 rfl).2
  exact h.mpr (by norm_num)

/-! Pipeline helper lemmas, shared by C5, C6 and C7. -/

/-- The normalised flag column of the pipeline is the joined flag column
passed through `normFlag`. -/
theorem normed_flags_eq (t : WideTable) :
    (normedOf t).map (fun row => row.sir_flag) =
      (joinedOf t).map (fun row => normFlag row.sir_flag) := by
  rw [normedOf, List.map_map]
  rfl

/-- The unknown set is empty exactly when every non-missing token of the
column belongs to the synonym table. -/
theorem unknown_flags_eq_nil_iff {col : List (Option String)} :
    unknown_flags col = [] ↔ ∀ s : String, some s ∈ col → isKnownFlag s = true := by
  rw [unknown_flags, List.dedup_eq_nil, List.filter_eq_nil_iff]
  constructor
  · intro h s hs
    have hmem : s ∈ col.filterMap id := List.mem_filterMap.mpr ⟨some s, hs, rfl⟩
    have h2 := h s hmem
    simpa using h2
  · intro h s hs
    obtain ⟨v, hv, hid⟩ := List.mem_filterMap.mp hs
    simp only [id] at hid
    subst hid
    simp [h s hv]

/-- Every member of the unknown set really is a non-missing token of the
column that lies outside the synonym table. -/
theorem mem_unknown_flags {col : List (Option String)} {s : String}
    (h : s ∈ unknown_flags col) : some s ∈ col ∧ isKnownFlag s = false := by
  rw [unknown_flags] at h
  have h2 := List.mem_dedup.mp h
  have h3 := List.mem_filter.mp h2
  obtain ⟨v, hv, hid⟩ := List.mem_filterMap.mp h3.1
  simp only [id] at hid
  subst hid
  exact ⟨hv, by simpa using h3.2⟩

/-- A non-empty column set is not `isEmpty`. -/
theorem isEmpty_false_of_ne_nil {l : List String} (h : l ≠ []) :
    l.isEmpty = false := by
  cases hh : l with
  | nil => exact absurd hh h
  | cons a t => rfl

/-- Joining a left row against an empty flag table yields exactly one row
with a missing flag. -/
theorem joinOne_nil (m : MicObs) :
    joinOne m [] = [{ isolate_id := m.isolate_id, country := m.country, year := m.year,
                      drug := m.drug, mic_value := m.mic_value, sir_flag := none }] := rfl

/-- Every row of a left join against an empty flag table has a missing
flag. -/
theorem leftJoinFlags_nil_flags {mics : List MicObs} :
    ∀ row ∈ leftJoinFlags mics [], row.sir_flag = none := by
  intro row hrow
  rw [leftJoinFlags] at hrow
  obtain ⟨m, hm, hrow2⟩ := List.mem_flatMap.mp hrow
  rw [joinOne_nil] at hrow2
  have h := List.mem_singleton.mp hrow2
  rw [h]

/-! Claim C6. -/

/-- C6: provided some MIC column was classified (so that step 8 is
reached), the pipeline aborts with the unknown-flag error if and only if
the joined flag column, after trimming and uppercasing, contains a
non-missing token outside the closed synonym table, and the error carries
exactly the offending token set; in particular the one-row workbook whose
flag cell is "MAYBE" aborts with an error naming MAYBE. -/
theorem C6_unknown_flag_rejection :
    (∀ t : WideTable, t.micCols ≠ [] →
      (((∃ u, clean_pipeline t = .error (.unknownFlags u)) ↔
          ∃ s : String, some s ∈ (joinedOf t).map (fun row => normFlag row.sir_flag) ∧
            isKnownFlag s = false)
        ∧ ∀ u, clean_pipeline t = .error (.unknownFlags u) →
            u = unknown_flags ((joinedOf t).map (fun row => normFlag row.sir_flag))))
    ∧ clean_pipeline maybeTable = .error (.unknownFlags ["MAYBE"]) := by
  constructor
  · intro t hmic
    have hcond : ¬ (t.micCols.isEmpty = true) := by
      simp [isEmpty_false_of_ne_nil hmic]
    rw [clean_pipeline, if_neg hcond, ← normed_flags_eq]
    cases hU : unknown_flags ((normedOf t).map (fun row => row.sir_flag)) with
    | nil =>
      constructor
      · constructor
        · rintro ⟨u, habs⟩
          exact absurd habs (by simp)
        · rintro ⟨s, hs, hfalse⟩
          have hknown := (unknown_flags_eq_nil_iff.mp hU) s hs
          rw [hknown] at hfalse
          exact absurd hfalse (by decide)
      · intro u habs
        exact absurd habs (by simp)
    | cons a l =>
      constructor
      · constructor
        · intro _
          have ha : a ∈ unknown_flags ((normedOf t).map (fun row => row.sir_flag)) := by
            rw [hU]
            exact List.mem_cons_self a l
          obtain ⟨hmem, hunk⟩ := mem_unknown_flags ha
          exact ⟨a, hmem, hunk⟩
        · intro _
          exact ⟨a :: l, rfl⟩
      · intro u herr
        injection herr with h4
        injection h4 with h5
        exact h5.symm
  · with_unfolding_all rfl

/-- Witness for C6 at the "MAYBE" workbook. -/
theorem C6_unknown_flag_rejection_witness :
    ∃ u, clean_pipeline maybeTable = .error (.unknownFlags u) :=
  ((C6_unknown_flag_rejection.1 maybeTable (by decide)).1).mpr
    ⟨"MAYBE", by with_unfolding_all decide, by decide⟩

/-! Claim C7. -/

/-- C7: an empty classified MIC column set aborts the pipeline with the
no-MIC-columns error, while an empty flag column set is tolerated: the
pipeline completes and every output row has a missing `sir_flag`. -/
theorem C7_empty_column_sets (t : WideTable) :
    (t.micCols = [] → clean_pipeline t = .error .noMicColumns)
    ∧ (t.micCols ≠ [] → t.flagCols = [] →
        ∃ out, clean_pipeline t = .ok out ∧ ∀ row ∈ out, row.sir_flag = none) := by
  constructor
  · intro h
    rw [clean_pipeline, if_pos (by rw [h]; rfl)]
  · intro hmic hflag
    have hjoin : ∀ row ∈ joinedOf t, row.sir_flag = none := by
      intro row hrow
      rw [joinedOf] at hrow
      have hmf : meltFlag (countryFilter t) = [] := by
        rw [meltFlag]
        have hfc : (countryFilter t).flagCols = [] := hflag
        rw [hfc]
        simp
      rw [hmf] at hrow
      exact leftJoinFlags_nil_flags row hrow
    have hnormed : ∀ row ∈ normedOf t, row.sir_flag = none := by
      intro row hrow
      rw [normedOf] at hrow
      obtain ⟨r0, hr0, heq⟩ := List.mem_map.mp hrow
      rw [← heq]
      simp [hjoin r0 hr0, normFlag]
    have hU : unknown_flags ((normedOf t).map (fun row => row.sir_flag)) = [] := by
      rw [unknown_flags_eq_nil_iff]
      intro s hs
      obtain ⟨r0, hr0, heq⟩ := List.mem_map.mp hs
      rw [hnormed r0 hr0] at heq
      exact absurd heq (by simp)
    refine ⟨(trimmedOf t).filter (fun r => r.mic_value.isSome), ?_, ?_⟩
    · rw [clean_pipeline, if_neg (by simp [isEmpty_false_of_ne_nil hmic]), hU]
    · intro row hrow
      have hrow2 := (List.mem_filter.mp hrow).1
      rw [trimmedOf] at hrow2
      obtain ⟨r1, hr1, heq1⟩ := List.mem_map.mp hrow2
      rw [labelledOf] at hr1
      obtain ⟨r0, hr0, heq0⟩ := List.mem_map.mp hr1
      rw [← heq1, ← heq0]
      simp [hnormed r0 hr0, mapFlag]

/-- Witness for C7: the one-row workbook with one MIC column and no flag
columns completes with `sir_flag` missing everywhere. -/
theorem C7_empty_column_sets_witness :
    ∃ out, clean_pipeline noFlagTable = .ok out ∧ ∀ row ∈ out, row.sir_flag = none :=
  (C7_empty_column_sets noFlagTable).2 (by decide) rfl

/-! Claim C3. -/

/-- Length of a `flatMap` whose blocks all have length `k`. -/
theorem flatMap_const_length {α β : Type} (f : α → List β) (k : ℕ) :
    ∀ l : List α, (∀ a ∈ l, (f a).length = k) → (l.flatMap f).length = l.length * k := by
  intro l
  induction l with
  | nil => intro _; simp
  | cons a rest ih =>
    intro h
    rw [List.flatMap_cons, List.length_append, h a (List.mem_cons_self a rest),
      ih (fun b hb => h b (List.mem_cons_of_mem a hb)), List.length_cons]
    ring

/-- The MIC melt of a rectangular table has rows × MIC columns rows. -/
theorem meltMic_length (t : WideTable)
    (hrect : ∀ r ∈ t.rows, r.micVals.length = t.micCols.length) :
    (meltMic t).length = t.rows.length * t.micCols.length := by
  rw [meltMic]
  refine flatMap_const_length _ _ _ (fun r hr => ?_)
  rw [List.length_map, List.length_zip, hrect r hr, Nat.min_self]

/-- A left row with at most one match contributes exactly one joined
row. -/
theorem joinOne_length {m : MicObs} {flags : List FlagObs}
    (h : (flags.filter (matchKey m)).length ≤ 1) :
    (joinOne m flags).length = 1 := by
  rw [joinOne]
  cases hf : flags.filter (matchKey m) with
  | nil => rfl
  | cons a l =>
    rw [hf] at h
    cases l with
    | nil => rfl
    | cons b l2 => exact absurd h (by simp)

/-- A left join in which every left row has at most one match preserves
the left row count. -/
theorem leftJoinFlags_length {mics : List MicObs} {flags : List FlagObs}
    (h : ∀ m ∈ mics, (flags.filter (matchKey m)).length ≤ 1) :
    (leftJoinFlags mics flags).length = mics.length := by
  rw [leftJoinFlags,
    flatMap_const_length _ 1 mics (fun m hm => joinOne_length (h m hm)), Nat.mul_one]

/-- Within one row's flag block, at most one entry matches a given
(isolate, drug) key when no two flag columns strip to the same drug. -/
theorem flagBlock_filter_length (cols : List String) (riso iso drug : String)
    (hnd : (cols.map stripFlagSuffix).Nodup) :
    ∀ vals : List (Option String),
    (((cols.zip vals).map (fun cv =>
        ({ isolate_id := riso, drug := stripFlagSuffix cv.1, sir_flag := cv.2 } : FlagObs))).filter
      (fun f => f.isolate_id == iso && f.drug == drug)).length ≤ 1 := by
  induction cols with
  | nil => intro vals; simp
  | cons c cs ih =>
    intro vals
    cases vals with
    | nil => simp
    | cons v vs =>
      rw [List.zip_cons_cons, List.map_cons, List.filter_cons]
      have hnd2 : stripFlagSuffix c ∉ cs.map stripFlagSuffix ∧
          (cs.map stripFlagSuffix).Nodup := by
        rw [List.map_cons] at hnd
        exact List.nodup_cons.mp hnd
      by_cases hc : ((riso == iso) && (stripFlagSuffix c == drug)) = true
      · rw [if_pos (by simpa using hc)]
        have hdrug : stripFlagSuffix c = drug := by
          have h2 := (Bool.and_eq_true _ _).mp hc
          exact beq_iff_eq.mp h2.2
        have hrest : ((cs.zip vs).map (fun cv =>
            ({ isolate_id := riso, drug := stripFlagSuffix cv.1, sir_flag := cv.2 } : FlagObs))).filter
              (fun f => f.isolate_id == iso && f.drug == drug) = [] := by
          rw [List.filter_eq_nil_iff]
          intro f hf
          obtain ⟨cv, hcv, hfe⟩ := List.mem_map.mp hf
          rw [← hfe]
          simp only [Bool.and_eq_true, beq_iff_eq, not_and]
          intro _
          have hc1 : cv.1 ∈ cs := (List.of_mem_zip hcv).1
          have hmem : stripFlagSuffix cv.1 ∈ cs.map stripFlagSuffix :=
            List.mem_map.mpr ⟨cv.1, hc1, rfl⟩
          intro heq2
          rw [heq2, ← hdrug] at hmem
          exact hnd2.1 hmem
        rw [hrest]
        simp
      · rw [if_neg (by simpa using hc)]
        exact ih hnd2.2 vs

/-- Across the whole flag melt, at most one entry matches a given
(isolate, drug) key when isolate ids are unique and no two flag columns
strip to the same drug. -/
theorem flagRows_filter_length (flagCols : List String) (iso drug : String)
    (hflag : (flagCols.map stripFlagSuffix).Nodup) :
    ∀ rows : List WideRow, (rows.map WideRow.isolate_id).Nodup →
    ((rows.flatMap (fun r => (flagCols.zip r.flagVals).map (fun cv =>
        ({ isolate_id := r.isolate_id, drug := stripFlagSuffix cv.1,
           sir_flag := cv.2 } : FlagObs)))).filter
      (fun f => f.isolate_id == iso && f.drug == drug)).length ≤ 1 := by
  intro rows
  induction rows with
  | nil => intro _; simp
  | cons r rest ih =>
    intro hiso
    have hiso2 : r.isolate_id ∉ rest.map WideRow.isolate_id ∧
        (rest.map WideRow.isolate_id).Nodup := by
      rw [List.map_cons] at hiso
      exact List.nodup_cons.mp hiso
    rw [List.flatMap_cons, List.filter_append, List.length_append]
    by_cases hr : r.isolate_id = iso
    · have hrest : ((rest.flatMap (fun r2 => (flagCols.zip r2.flagVals).map (fun cv =>
          ({ isolate_id := r2.isolate_id, drug := stripFlagSuffix cv.1,
             sir_flag := cv.2 } : FlagObs)))).filter
            (fun f => f.isolate_id == iso && f.drug == drug)) = [] := by
        rw [List.filter_eq_nil_iff]
        intro f hf
        obtain ⟨r2, hr2, hf2⟩ := List.mem_flatMap.mp hf
        obtain ⟨cv, hcv, hfe⟩ := List.mem_map.mp hf2
        rw [← hfe]
        simp only [Bool.and_eq_true, beq_iff_eq, not_and]
        intro heq _
        have hmem : r2.isolate_id ∈ rest.map WideRow.isolate_id :=
          List.mem_map.mpr ⟨r2, hr2, rfl⟩
        rw [heq, ← hr] at hmem
        exact hiso2.1 hmem
      rw [hrest]
      simpa using flagBlock_filter_length flagCols r.isolate_id iso drug hflag r.flagVals
    · have hblock : (((flagCols.zip r.flagVals).map (fun cv =>
          ({ isolate_id := r.isolate_id, drug := stripFlagSuffix cv.1,
             sir_flag := cv.2 } : FlagObs))).filter
            (fun f => f.isolate_id == iso && f.drug == drug)) = [] := by
        rw [List.filter_eq_nil_iff]
        intro f hf
        obtain ⟨cv, hcv, hfe⟩ := List.mem_map.mp hf
        rw [← hfe]
        simp only [Bool.and_eq_true, beq_iff_eq, not_and]
        intro heq
        exact absurd heq hr
      rw [hblock]
      simpa using ih hiso2.2

/-- Every row a left row contributes carries that left row's drug. -/
theorem joinOne_drug {m : MicObs} {flags : List FlagObs} :
    ∀ row ∈ joinOne m flags, row.drug = m.drug := by
  intro row hrow
  rw [joinOne] at hrow
  cases hf : flags.filter (matchKey m) with
  | nil =>
    rw [hf] at hrow
    have h2 := List.mem_singleton.mp hrow
    rw [h2]
  | cons a l =>
    rw [hf] at hrow
    obtain ⟨f, hfm, hfe⟩ := List.mem_map.mp hrow
    rw [← hfe]

/-- C3: under the documented preconditions (rectangular table, unique
isolate ids among surviving rows, at most one flag column per drug), the
melt-and-left-join step produces exactly rows × MIC-columns rows, and
every output row's drug is a MIC column — rows present only in the flag
melt are absent. -/
theorem C3_reshape_rowcount (t : WideTable)
    (hrect : ∀ r ∈ t.rows, r.micVals.length = t.micCols.length)
    (hiso : (t.rows.map WideRow.isolate_id).Nodup)
    (hflag : (t.flagCols.map stripFlagSuffix).Nodup) :
    (leftJoinFlags (meltMic t) (meltFlag t)).length = t.rows.length * t.micCols.length
    ∧ ∀ row ∈ leftJoinFlags (meltMic t) (meltFlag t), row.drug ∈ t.micCols := by
  constructor
  · rw [leftJoinFlags_length (fun m _ => by
      rw [meltFlag]
      exact flagRows_filter_length t.flagCols m.isolate_id m.drug hflag t.rows hiso)]
    exact meltMic_length t hrect
  · intro row hrow
    rw [leftJoinFlags] at hrow
    obtain ⟨m, hm, hrow2⟩ := List.mem_flatMap.mp hrow
    rw [joinOne_drug row hrow2]
    rw [meltMic] at hm
    obtain ⟨r, hr, hm2⟩ := List.mem_flatMap.mp hm
    obtain ⟨cv, hcv, hme⟩ := List.mem_map.mp hm2
    rw [← hme]
    exact (List.of_mem_zip hcv).1

/-- Witness for C3 at the two-row example workbook: 2 rows × 1 MIC column
= 2 joined rows. -/
theorem C3_reshape_rowcount_witness :
    (leftJoinFlags (meltMic cleanEx) (meltFlag cleanEx)).length =
      cleanEx.rows.length * cleanEx.micCols.length :=
  (C3_reshape_rowcount cleanEx
    (by with_unfolding_all decide) (by decide) (by decide)).1

/-! Claim C5. -/

/-- Dissection of a successful pipeline run: the unknown set was empty and
the output is the trimmed table without its missing-MIC rows. -/
theorem clean_pipeline_ok {t : WideTable} {out : List CleanRow}
    (h : clean_pipeline t = .ok out) :
    unknown_flags ((normedOf t).map (fun row => row.sir_flag)) = [] ∧
      out = (trimmedOf t).filter (fun r => r.mic_value.isSome) := by
  rw [clean_pipeline] at h
  by_cases hc : t.micCols.isEmpty = true
  · rw [if_pos hc] at h
    exact Except.noConfusion h
  · rw [if_neg hc] at h
    cases hU : unknown_flags ((normedOf t).map (fun row => row.sir_flag)) with
    | nil =>
      rw [hU] at h
      refine ⟨rfl, ?_⟩
      injection h with h2
      exact h2.symm
    | cons a l =>
      rw [hU] at h
      exact Except.noConfusion h

/-- C5: in every row of a table returned by the pipeline, `resistant` is 1
exactly when `sir_flag` is R, 0 exactly when it is S, and missing exactly
when `sir_flag` is I or missing. -/
theorem C5_resistant_invariant (t : WideTable) (out : List CleanRow)
    (h : clean_pipeline t = .ok out) :
    ∀ row ∈ out,
      (row.resistant = some 1 ↔ row.sir_flag = some "R")
      ∧ (row.resistant = some 0 ↔ row.sir_flag = some "S")
      ∧ (row.resistant = none ↔ (row.sir_flag = some "I" ∨ row.sir_flag = none)) := by
  obtain ⟨hU, hout⟩ := clean_pipeline_ok h
  intro row hrow
  rw [hout] at hrow
  have hrow2 := (List.mem_filter.mp hrow).1
  rw [trimmedOf] at hrow2
  obtain ⟨r1, hr1, heq1⟩ := List.mem_map.mp hrow2
  rw [labelledOf] at hr1
  obtain ⟨r0, hr0, heq0⟩ := List.mem_map.mp hr1
  have hsir : row.sir_flag = mapFlag r0.sir_flag := by rw [← heq1, ← heq0]
  have hres : row.resistant = resistantOf (mapFlag r0.sir_flag) := by rw [← heq1, ← heq0]
  have hval : ∀ s : String, r0.sir_flag = some s → isKnownFlag s = true := by
    intro s hs
    refine (unknown_flags_eq_nil_iff.mp hU) s ?_
    exact List.mem_map.mpr ⟨r0, hr0, by rw [hs]⟩
  rw [hsir, hres]
  cases hsf : r0.sir_flag with
  | none => simp [mapFlag, resistantOf]
  | some s =>
    have hk := hval s hsf
    have hkeys : FLAG_MAP.map Prod.fst =
        ["S", "SUSCEPTIBLE", "R", "RESISTANT", "NS", "I", "INTERMEDIATE", "U"] := rfl
    have hsmem : s ∈ ["S", "SUSCEPTIBLE", "R", "RESISTANT", "NS", "I", "INTERMEDIATE", "U"] := by
      rw [← hkeys]
      rw [isKnownFlag] at hk
      simpa using hk
    fin_cases hsmem <;> with_unfolding_all decide

/-- Witness for C5 at the first output row of the two-row example
workbook. -/
theorem C5_resistant_invariant_witness :
    (cleanExRow.resistant = some 1 ↔ cleanExRow.sir_flag = some "R")
    ∧ (cleanExRow.resistant = some 0 ↔ cleanExRow.sir_flag = some "S")
    ∧ (cleanExRow.resistant = none ↔ (cleanExRow.sir_flag = some "I" ∨ cleanExRow.sir_flag = none)) :=
  C5_resistant_invariant cleanEx ((trimmedOf cleanEx).filter (fun r => r.mic_value.isSome))
    (by with_unfolding_all rfl) cleanExRow (by with_unfolding_all decide)

/-! Character-level lemmas for the header normaliser (claims C2 and C8). -/

/-- Boolean equality from the equivalence of truth. -/
theorem bool_eq_of_iff {a b : Bool} (h : a = true ↔ b = true) : a = b := by
  cases a <;> cases b <;> simp_all

/-- Characters with different codepoints differ. -/
theorem char_ne_of_toNat {c d : Char} (h : c.toNat ≠ d.toNat) : c ≠ d :=
  fun he => h (he ▸ rfl)

/-- Codepoint characterisation of the alphanumeric test. -/
theorem isAlnumAscii_toNat {c : Char} : isAlnumAscii c = true ↔
    (48 ≤ c.toNat ∧ c.toNat ≤ 57) ∨ (97 ≤ c.toNat ∧ c.toNat ≤ 122)
      ∨ (65 ≤ c.toNat ∧ c.toNat ≤ 90) := by
  simp [isAlnumAscii]
  tauto

/-- `Char.toLower` adds 32 to the codepoint of an ASCII capital. -/
theorem toLower_toNat_of_upper {c : Char} (h1 : 65 ≤ c.toNat) (h2 : c.toNat ≤ 90) :
    (Char.toLower c).toNat = c.toNat + 32 := by
  unfold Char.toLower
  rw [if_pos (by simp [h1, h2])]
  have hv : (c.toNat + 32).isValidChar := Or.inl (by omega)
  simp [Char.ofNat, hv]
  rfl

/-- `Char.toLower` fixes every character other than an ASCII capital. -/
theorem toLower_eq_self {c : Char} (h : ¬(65 ≤ c.toNat ∧ c.toNat ≤ 90)) :
    Char.toLower c = c := by
  unfold Char.toLower
  rw [if_neg]
  simp only [Bool.and_eq_true, decide_eq_true_eq, not_and]
  intro h1 h2
  exact h ⟨h1, h2⟩

/-- Lowercasing preserves the alphanumeric test. -/
theorem isAlnumAscii_toLower (c : Char) : isAlnumAscii (Char.toLower c) = isAlnumAscii c := by
  apply bool_eq_of_iff
  rw [isAlnumAscii_toNat, isAlnumAscii_toNat]
  by_cases h : 65 ≤ c.toNat ∧ c.toNat ≤ 90
  · rw [toLower_toNat_of_upper h.1 h.2]
    omega
  · rw [toLower_eq_self h]

/-- Alphanumeric and underscore characters are ASCII. -/
theorem alnum_or_und_toNat_lt {c : Char} (h : isAlnumAscii c = true ∨ c = '_') :
    c.toNat < 128 := by
  rcases h with h | h
  · rcases isAlnumAscii_toNat.mp h with ⟨h1, h2⟩ | ⟨h1, h2⟩ | ⟨h1, h2⟩ <;> omega
  · rw [h]; decide

/-- Lowercasing neither creates nor destroys an underscore. -/
theorem toLower_eq_und_iff (c : Char) : Char.toLower c = '_' ↔ c = '_' := by
  by_cases h : 65 ≤ c.toNat ∧ c.toNat ≤ 90
  · constructor
    · intro he
      have ht := toLower_toNat_of_upper h.1 h.2
      rw [he] at ht
      have h95 : ('_').toNat = 95 := rfl
      exact absurd ht (by omega)
    · intro he
      rw [he] at h
      exact absurd h (by decide)
  · rw [toLower_eq_self h]

/-- Lowercasing preserves the underscore test. -/
theorem isUnd_toLower (c : Char) : isUnd (Char.toLower c) = isUnd c := by
  apply bool_eq_of_iff
  simp only [isUnd, beq_iff_eq]
  exact toLower_eq_und_iff c

/-- `Char.toLower` is idempotent. -/
theorem toLower_idem (c : Char) : Char.toLower (Char.toLower c) = Char.toLower c := by
  by_cases h : 65 ≤ c.toNat ∧ c.toNat ≤ 90
  · have ht := toLower_toNat_of_upper h.1 h.2
    apply toLower_eq_self
    omega
  · rw [toLower_eq_self h]
    exact toLower_eq_self h

/-- An alphanumeric character is not Python whitespace. -/
theorem pyIsSpace_eq_false_of_alnum {c : Char} (h : isAlnumAscii c = true) :
    pyIsSpace c = false := by
  have hn := isAlnumAscii_toNat.mp h
  have e1 : (' ').toNat = 32 := rfl
  have e2 : ('\t').toNat = 9 := rfl
  have e3 : ('\n').toNat = 10 := rfl
  have e4 : ('\r').toNat = 13 := rfl
  have e5 : ('\x0b').toNat = 11 := rfl
  have e6 : ('\x0c').toNat = 12 := rfl
  have h1 : c ≠ ' ' := char_ne_of_toNat (by omega)
  have h2 : c ≠ '\t' := char_ne_of_toNat (by omega)
  have h3 : c ≠ '\n' := char_ne_of_toNat (by omega)
  have h4 : c ≠ '\r' := char_ne_of_toNat (by omega)
  have h5 : c ≠ '\x0b' := char_ne_of_toNat (by omega)
  have h6 : c ≠ '\x0c' := char_ne_of_toNat (by omega)
  simp [pyIsSpace, h1, h2, h3, h4, h5, h6]

/-- An alphanumeric character is not an underscore. -/
theorem isUnd_eq_false_of_alnum {c : Char} (h : isAlnumAscii c = true) :
    isUnd c = false := by
  have hn := isAlnumAscii_toNat.mp h
  have e1 : ('_').toNat = 95 := rfl
  have h1 : c ≠ '_' := char_ne_of_toNat (by omega)
  simp [isUnd, h1]

/-- `subChar` always produces an alphanumeric or an underscore. -/
theorem subChar_alnum_or_und (c : Char) : isAlnumAscii (subChar c) = true ∨ subChar c = '_' := by
  rw [subChar]
  by_cases h : isAlnumAscii c = true
  · rw [if_pos h]
    exact Or.inl h
  · rw [if_neg h]
    exact Or.inr rfl

/-! Structural lemmas about `snakeAux`, `dropWhile` and `dropTrailing`. -/

/-- The tail of a well-separated list is well separated. -/
theorem noAdjSep_tail {c : Char} {t : List Char} (h : noAdjSep (c :: t) = true) :
    noAdjSep t = true := by
  cases t with
  | nil => rfl
  | cons d t2 =>
    rw [noAdjSep] at h
    exact ((Bool.and_eq_true _ _).mp h).2

/-- Prepending an alphanumeric character preserves separation. -/
theorem noAdjSep_cons_of_alnum {c : Char} {t : List Char}
    (hc : isAlnumAscii c = true) (ht : noAdjSep t = true) :
    noAdjSep (c :: t) = true := by
  cases t with
  | nil => rfl
  | cons d t2 =>
    simp only [noAdjSep, hc, Bool.true_or, Bool.true_and]
    exact ht

/-- Prepending any character to a list with an alphanumeric head preserves
separation. -/
theorem noAdjSep_cons_of_head {c : Char} {t : List Char}
    (hh : headAlnum t = true) (ht : noAdjSep t = true) :
    noAdjSep (c :: t) = true := by
  cases t with
  | nil => rfl
  | cons d t2 =>
    have hd : isAlnumAscii d = true := hh
    simp only [noAdjSep, hd, Bool.or_true, Bool.true_and]
    exact ht

/-- A list whose optional head is alphanumeric has an alphanumeric
head. -/
theorem headAlnum_of_head? {l : List Char}
    (h : ∀ c, l.head? = some c → isAlnumAscii c = true) : headAlnum l = true := by
  cases l with
  | nil => rfl
  | cons a t => exact h a rfl

/-- The head of a list, when present, is a member. -/
theorem mem_of_head? {l : List Char} {c : Char} (h : l.head? = some c) : c ∈ l := by
  cases l with
  | nil => exact absurd h (by simp)
  | cons a t =>
    rw [List.head?_cons] at h
    injection h with he
    rw [← he]
    exact List.mem_cons_self a t

/-- Every character that `snakeAux` outputs is alphanumeric or an
underscore. -/
theorem snakeAux_chars : ∀ (l : List Char) (b : Bool) (c : Char),
    c ∈ snakeAux b l → isAlnumAscii c = true ∨ c = '_' := by
  intro l
  induction l with
  | nil =>
    intro b c hc
    simp [snakeAux] at hc
  | cons a rest ih =>
    intro b c hc
    simp only [snakeAux] at hc
    by_cases ha : isAlnumAscii a = true
    · rw [if_pos ha] at hc
      rcases List.mem_cons.mp hc with h | h
      · exact Or.inl (h ▸ ha)
      · exact ih false c h
    · rw [if_neg ha] at hc
      cases b with
      | true =>
        rw [if_pos rfl] at hc
        exact ih true c hc
      | false =>
        rw [if_neg (by simp)] at hc
        rcases List.mem_cons.mp hc with h | h
        · exact Or.inr h
        · exact ih true c h

/-- With the in-run flag set, the first emitted character is
alphanumeric. -/
theorem snakeAux_true_head : ∀ (l : List Char) (c : Char),
    (snakeAux true l).head? = some c → isAlnumAscii c = true := by
  intro l
  induction l with
  | nil =>
    intro c hc
    exact absurd hc (by simp [snakeAux])
  | cons a rest ih =>
    intro c hc
    simp only [snakeAux] at hc
    by_cases ha : isAlnumAscii a = true
    · rw [if_pos ha, List.head?_cons] at hc
      injection hc with he
      rw [← he]
      exact ha
    · rw [if_neg ha, if_true] at hc
      exact ih c hc

/-- The output of `snakeAux` never has two adjacent underscores. -/
theorem snakeAux_noAdj : ∀ (n : ℕ) (l : List Char), l.length ≤ n → ∀ b : Bool,
    noAdjSep (snakeAux b l) = true := by
  intro n
  induction n with
  | zero =>
    intro l hl b
    have he : l = [] := List.eq_nil_of_length_eq_zero (Nat.le_zero.mp hl)
    subst he
    rfl
  | succ n ih =>
    intro l hl b
    cases l with
    | nil => rfl
    | cons a rest =>
      have hl2 : rest.length ≤ n := by
        simp only [List.length_cons] at hl
        omega
      simp only [snakeAux]
      by_cases ha : isAlnumAscii a = true
      · rw [if_pos ha]
        exact noAdjSep_cons_of_alnum ha (ih rest hl2 false)
      · rw [if_neg ha]
        cases b with
        | true =>
          rw [if_pos rfl]
          exact ih rest hl2 true
        | false =>
          rw [if_neg (by simp)]
          exact noAdjSep_cons_of_head
            (headAlnum_of_head? (fun c hc => snakeAux_true_head rest c hc))
            (ih rest hl2 true)

/-- On a well-separated list with alphanumeric head, `snakeAux` is exactly
the character map `subChar`. -/
theorem snakeAux_map_of_good : ∀ (n : ℕ) (l : List Char), l.length ≤ n →
    noAdjSep l = true → headAlnum l = true →
    snakeAux false l = l.map subChar ∧ snakeAux true l = l.map subChar := by
  intro n
  induction n with
  | zero =>
    intro l hl _ _
    have he : l = [] := List.eq_nil_of_length_eq_zero (Nat.le_zero.mp hl)
    subst he
    exact ⟨rfl, rfl⟩
  | succ n ih =>
    intro l hl hadj hhead
    cases l with
    | nil => exact ⟨rfl, rfl⟩
    | cons c rest =>
      have hc : isAlnumAscii c = true := hhead
      have hrest : snakeAux false rest = rest.map subChar := by
        cases rest with
        | nil => rfl
        | cons d rest2 =>
          have hadj2 : noAdjSep (d :: rest2) = true := noAdjSep_tail hadj
          by_cases hd : isAlnumAscii d = true
          · exact (ih (d :: rest2)
              (by simp only [List.length_cons] at hl ⊢; omega) hadj2 hd).1
          · simp only [snakeAux, if_neg hd, if_neg (by simp : ¬(false = true)),
              List.map_cons]
            have hsd : subChar d = '_' := by rw [subChar, if_neg hd]
            rw [hsd]
            congr 1
            cases rest2 with
            | nil => rfl
            | cons e rest3 =>
              have hadj3 : noAdjSep (e :: rest3) = true := noAdjSep_tail hadj2
              have hpair2 : (isAlnumAscii d || isAlnumAscii e) = true := by
                simp only [noAdjSep, Bool.and_eq_true] at hadj2
                exact hadj2.1
              have he2 : isAlnumAscii e = true := by
                rcases Bool.or_eq_true_iff.mp hpair2 with h | h
                · exact absurd h hd
                · exact h
              exact (ih (e :: rest3)
                (by simp only [List.length_cons] at hl ⊢; omega) hadj3 he2).2
      have hsc : subChar c = c := by rw [subChar, if_pos hc]
      constructor
      · simp only [snakeAux, if_pos hc, List.map_cons, hsc]
        rw [hrest]
      · simp only [snakeAux, if_pos hc, List.map_cons, hsc]
        rw [hrest]

/-- `dropWhile` preserves separation. -/
theorem noAdjSep_dropWhile (p : Char → Bool) : ∀ l : List Char,
    noAdjSep l = true → noAdjSep (l.dropWhile p) = true := by
  intro l
  induction l with
  | nil => intro h; exact h
  | cons c rest ih =>
    intro h
    rw [List.dropWhile_cons]
    by_cases hp : p c = true
    · rw [if_pos hp]
      exact ih (noAdjSep_tail h)
    · rw [if_neg hp]
      exact h

/-- A head surviving `dropWhile` fails the predicate. -/
theorem head_dropWhile_false (p : Char → Bool) : ∀ (l : List Char) (c : Char),
    (l.dropWhile p).head? = some c → p c = false := by
  intro l
  induction l with
  | nil =>
    intro c hc
    exact absurd hc (by simp)
  | cons a rest ih =>
    intro c hc
    rw [List.dropWhile_cons] at hc
    by_cases hp : p a = true
    · rw [if_pos hp] at hc
      exact ih c hc
    · rw [if_neg hp, List.head?_cons] at hc
      injection hc with he
      rw [← he]
      cases hpa : p a with
      | false => rfl
      | true => exact absurd hpa hp

/-- `dropWhile` is the identity when the head fails the predicate. -/
theorem dropWhile_eq_self_of_head (p : Char → Bool) (l : List Char)
    (h : ∀ c, l.head? = some c → p c = false) : l.dropWhile p = l := by
  cases l with
  | nil => rfl
  | cons a rest =>
    rw [List.dropWhile_cons, if_neg (by simp [h a rfl])]

/-- Members of `dropTrailing` come from the original list. -/
theorem mem_dropTrailing (p : Char → Bool) : ∀ (l : List Char) (c : Char),
    c ∈ dropTrailing p l → c ∈ l := by
  intro l
  induction l with
  | nil =>
    intro c hc
    exact absurd hc (by simp [dropTrailing])
  | cons a rest ih =>
    intro c hc
    rw [dropTrailing] at hc
    cases hdt : dropTrailing p rest with
    | nil =>
      rw [hdt] at hc
      by_cases hp : p a = true
      · rw [if_pos hp] at hc
        exact absurd hc (by simp)
      · rw [if_neg hp] at hc
        rw [List.mem_singleton.mp hc]
        exact List.mem_cons_self a rest
    | cons d t =>
      rw [hdt] at hc
      rcases List.mem_cons.mp hc with h | h
      · rw [h]
        exact List.mem_cons_self a rest
      · exact List.mem_cons_of_mem a (ih c (by rw [hdt]; exact h))

/-- `dropTrailing` keeps the head of the list (or empties it). -/
theorem dropTrailing_head (p : Char → Bool) (l : List Char) :
    dropTrailing p l = [] ∨ (dropTrailing p l).head? = l.head? := by
  cases l with
  | nil => exact Or.inl rfl
  | cons a rest =>
    rw [dropTrailing]
    cases dropTrailing p rest with
    | nil =>
      by_cases hp : p a = true
      · rw [if_pos hp]
        exact Or.inl rfl
      · rw [if_neg hp]
        exact Or.inr rfl
    | cons d t => exact Or.inr rfl

/-- `dropTrailing` preserves separation. -/
theorem noAdjSep_dropTrailing (p : Char → Bool) : ∀ l : List Char,
    noAdjSep l = true → noAdjSep (dropTrailing p l) = true := by
  intro l
  induction l with
  | nil => intro h; exact h
  | cons a rest ih =>
    intro h
    rw [dropTrailing]
    have h2 := ih (noAdjSep_tail h)
    cases hdt : dropTrailing p rest with
    | nil =>
      by_cases hp : p a = true
      · rw [if_pos hp]
        rfl
      · rw [if_neg hp]
        rfl
    | cons d t =>
      rw [hdt] at h2
      rcases dropTrailing_head p rest with he | hh
      · rw [he] at hdt
        exact absurd hdt (by simp)
      · have hd : rest.head? = some d := by rw [← hh, hdt]; rfl
        cases rest with
        | nil => exact absurd hd (by simp)
        | cons d0 rest2 =>
          rw [List.head?_cons] at hd
          injection hd with hdd
          have hpair : (isAlnumAscii a || isAlnumAscii d0) = true := by
            simp only [noAdjSep, Bool.and_eq_true] at h
            exact h.1
          simp only [noAdjSep, Bool.and_eq_true]
          constructor
          · rw [← hdd]
            exact hpair
          · exact h2

/-- `dropTrailing` is the identity when the last element fails the
predicate. -/
theorem dropTrailing_eq_self (p : Char → Bool) : ∀ l : List Char,
    (∀ c, l.getLast? = some c → p c = false) → dropTrailing p l = l
  | [], _ => rfl
  | [a], h => by
    rw [dropTrailing, dropTrailing, if_neg (by simp [h a (by simp)])]
  | a :: b :: rest, h => by
    rw [dropTrailing]
    have hrec : dropTrailing p (b :: rest) = b :: rest :=
      dropTrailing_eq_self p (b :: rest)
        (fun c hc => h c (by rw [List.getLast?_cons_cons]; exact hc))
    rw [hrec]

/-- The last element surviving `dropTrailing` fails the predicate. -/
theorem dropTrailing_getLast (p : Char → Bool) : ∀ (l : List Char) (c : Char),
    (dropTrailing p l).getLast? = some c → p c = false
  | [], c, h => absurd h (by simp [dropTrailing])
  | a :: rest, c, h => by
    rw [dropTrailing] at h
    cases hdt : dropTrailing p rest with
    | nil =>
      rw [hdt] at h
      by_cases hp : p a = true
      · rw [if_pos hp] at h
        exact absurd h (by simp)
      · rw [if_neg hp] at h
        have he : a = c := by simpa using h
        rw [← he]
        cases hpa : p a with
        | false => rfl
        | true => exact absurd hpa hp
    | cons d t =>
      rw [hdt] at h
      rw [List.getLast?_cons_cons] at h
      exact dropTrailing_getLast p rest c (by rw [hdt]; exact h)

/-- `stripBoth` keeps only original characters. -/
theorem stripBoth_chars {l : List Char} (p : Char → Bool) {c : Char}
    (hc : c ∈ stripBoth p l) : c ∈ l := by
  rw [stripBoth] at hc
  exact (l.dropWhile_sublist p).mem (mem_dropTrailing p _ c hc)

/-- `stripBoth` is the identity when neither end satisfies the
predicate. -/
theorem stripBoth_eq_self (p : Char → Bool) (l : List Char)
    (hh : ∀ c, l.head? = some c → p c = false)
    (hl : ∀ c, l.getLast? = some c → p c = false) : stripBoth p l = l := by
  rw [stripBoth, dropWhile_eq_self_of_head p l hh]
  exact dropTrailing_eq_self p l hl

/-- The last character of a stripped list is not an underscore. -/
theorem stripped_getLast {w : List Char} {c : Char}
    (h : (stripBoth isUnd w).getLast? = some c) : isUnd c = false := by
  rw [stripBoth] at h
  exact dropTrailing_getLast isUnd (w.dropWhile isUnd) c h

/-- The head of the underscore-stripped output of `snakeAux` is
alphanumeric. -/
theorem stripped_headAlnum {w : List Char}
    (hch : ∀ c ∈ w, isAlnumAscii c = true ∨ c = '_') :
    headAlnum (stripBoth isUnd w) = true := by
  apply headAlnum_of_head?
  intro c hc
  have hcw : c ∈ w := stripBoth_chars isUnd (mem_of_head? hc)
  have hcund : isUnd c = false := by
    rw [stripBoth] at hc
    rcases dropTrailing_head isUnd (w.dropWhile isUnd) with he | hpr
    · rw [he] at hc
      exact absurd hc (by simp)
    · rw [hpr] at hc
      exact head_dropWhile_false isUnd w c hc
  rcases hch c hcw with ha | hu
  · exact ha
  · rw [hu] at hcund
    exact absurd hcund (by decide)

/-- Lowercasing preserves separation. -/
theorem noAdjSep_map_toLower : ∀ l : List Char,
    noAdjSep (l.map Char.toLower) = noAdjSep l
  | [] => rfl
  | [a] => rfl
  | a :: b :: rest => by
    have ih := noAdjSep_map_toLower (b :: rest)
    simp only [List.map_cons] at ih ⊢
    simp only [noAdjSep, isAlnumAscii_toLower, ih]

/-- Lowercasing preserves an alphanumeric head. -/
theorem headAlnum_map_toLower (l : List Char) :
    headAlnum (l.map Char.toLower) = headAlnum l := by
  cases l with
  | nil => rfl
  | cons a t => simp only [List.map_cons, headAlnum, isAlnumAscii_toLower]

/-- `subChar` fixes a list of alphanumerics and underscores. -/
theorem map_subChar_eq_self {l : List Char}
    (h : ∀ c ∈ l, isAlnumAscii c = true ∨ c = '_') : l.map subChar = l := by
  have h2 : ∀ c ∈ l, subChar c = id c := by
    intro c hc
    rcases h c hc with ha | hu
    · rw [subChar, if_pos ha]
      rfl
    · rw [hu]
      decide
  rw [List.map_congr_left h2, List.map_id]

/-! Claim C8. -/

/-- Raw character list of the normaliser's output. -/
theorem ascii_snake_data (s : String) :
    (ascii_snake s).data =
      (stripBoth isUnd (snakeAux false (s.data.filter (fun c => c.toNat < 128)))).map
        Char.toLower := rfl

/-- The full normalisation pipeline fixes the lowercase image of a
stripped snake output. -/
theorem snake_pipeline_fixed (u : List Char)
    (huch : ∀ c ∈ u, isAlnumAscii c = true ∨ c = '_')
    (hadj : noAdjSep u = true)
    (hhead : headAlnum u = true)
    (hlastu : ∀ c, u.getLast? = some c → isUnd c = false) :
    (stripBoth isUnd (snakeAux false
        ((u.map Char.toLower).filter (fun c => c.toNat < 128)))).map Char.toLower =
      u.map Char.toLower := by
  have hout : ∀ c ∈ u.map Char.toLower, isAlnumAscii c = true ∨ c = '_' := by
    intro c hc
    obtain ⟨d, hd, he⟩ := List.mem_map.mp hc
    rcases huch d hd with ha | hu2
    · left
      rw [← he, isAlnumAscii_toLower]
      exact ha
    · right
      rw [← he, hu2]
      decide
  have hfil : (u.map Char.toLower).filter (fun c => c.toNat < 128) = u.map Char.toLower := by
    rw [List.filter_eq_self]
    intro c hc
    simpa using alnum_or_und_toNat_lt (hout c hc)
  rw [hfil]
  have hadj2 : noAdjSep (u.map Char.toLower) = true := by
    rw [noAdjSep_map_toLower]
    exact hadj
  have hhead2 : headAlnum (u.map Char.toLower) = true := by
    rw [headAlnum_map_toLower]
    exact hhead
  have hsnake : snakeAux false (u.map Char.toLower) = u.map Char.toLower := by
    rw [(snakeAux_map_of_good (u.map Char.toLower).length (u.map Char.toLower)
      le_rfl hadj2 hhead2).1]
    exact map_subChar_eq_self hout
  rw [hsnake]
  have hstrip : stripBoth isUnd (u.map Char.toLower) = u.map Char.toLower := by
    apply stripBoth_eq_self
    · intro c hc
      cases hl : u.map Char.toLower with
      | nil =>
        rw [hl] at hc
        exact absurd hc (by simp)
      | cons a t =>
        rw [hl, List.head?_cons] at hc
        injection hc with he
        have ha : isAlnumAscii a = true := by
          have hh2 := hhead2
          rw [hl] at hh2
          exact hh2
        rw [← he]
        exact isUnd_eq_false_of_alnum ha
    · intro c hc
      rw [List.getLast?_map] at hc
      cases hgl : u.getLast? with
      | none =>
        rw [hgl] at hc
        exact absurd hc (by simp)
      | some d =>
        rw [hgl] at hc
        simp only [Option.map_some'] at hc
        injection hc with he
        rw [← he, isUnd_toLower]
        exact hlastu d hgl
  rw [hstrip, List.map_map]
  apply List.map_congr_left
  intro c _
  simp only [Function.comp_apply]
  exact toLower_idem c

/-- C8: the header normaliser is idempotent — `ascii_snake` applied to its
own output returns it unchanged, every output (a token of lowercase ASCII
alphanumerics and single underscores without leading or trailing
underscore) being a fixed point. -/
theorem C8_ascii_snake_idempotent (s : String) :
    ascii_snake (ascii_snake s) = ascii_snake s := by
  have hwch : ∀ c ∈ snakeAux false (s.data.filter (fun c => c.toNat < 128)),
      isAlnumAscii c = true ∨ c = '_' :=
    fun c hc => snakeAux_chars _ false c hc
  have huch : ∀ c ∈ stripBoth isUnd (snakeAux false (s.data.filter (fun c => c.toNat < 128))),
      isAlnumAscii c = true ∨ c = '_' :=
    fun c hc => hwch c (stripBoth_chars isUnd hc)
  have hadj : noAdjSep (stripBoth isUnd
      (snakeAux false (s.data.filter (fun c => c.toNat < 128)))) = true :=
    noAdjSep_dropTrailing isUnd _
      (noAdjSep_dropWhile isUnd _
        (snakeAux_noAdj (s.data.filter (fun c => c.toNat < 128)).length _ le_rfl false))
  have hhead : headAlnum (stripBoth isUnd
      (snakeAux false (s.data.filter (fun c => c.toNat < 128)))) = true :=
    stripped_headAlnum hwch
  have hlast : ∀ c, (stripBoth isUnd
      (snakeAux false (s.data.filter (fun c => c.toNat < 128)))).getLast? = some c →
      isUnd c = false :=
    fun c hc => stripped_getLast hc
  apply String.ext
  rw [ascii_snake_data (ascii_snake s), ascii_snake_data s]
  exact snake_pipeline_fixed _ huch hadj hhead hlast

/-! Claim C2. -/

/-- C2, counterexample: on "a-b" the two normalisations disagree —
`_clean_key` keeps the hyphen while `ascii_snake` rewrites it to an
underscore, so `_clean_key` is not the header normaliser followed by
qualifier stripping. -/
theorem C2_counterexample :
    clean_key "a-b" = "a-b" ∧ stripQualifier (ascii_snake "a-b") = "a_b" ∧
      clean_key "a-b" ≠ stripQualifier (ascii_snake "a-b") :=
  ⟨by decide, by decide, by decide⟩

/-- C2 (amended): `_clean_key` only lowercases, rewrites spaces to
underscores and strips one trailing qualifier, so it agrees with
`stripQualifier ∘ ascii_snake` on strings of ASCII alphanumerics, spaces
and underscores with no two adjacent separators and alphanumeric first and
last characters — but not on other punctuation, which `ascii_snake` also
rewrites. -/
theorem C2_clean_key_agreement (s : String)
    (hchars : ∀ c ∈ s.data, isAlnumAscii c = true ∨ c = ' ' ∨ c = '_')
    (hadj : noAdjSep s.data = true)
    (hhead : headAlnum s.data = true)
    (hlast : lastAlnum s.data = true) :
    clean_key s = stripQualifier (ascii_snake s) := by
  have hfil : s.data.filter (fun c => c.toNat < 128) = s.data := by
    rw [List.filter_eq_self]
    intro c hc
    rcases hchars c hc with h | h | h
    · simpa using alnum_or_und_toNat_lt (Or.inl h)
    · rw [h]; decide
    · rw [h]; decide
  have hsnake : snakeAux false s.data = s.data.map subChar :=
    (snakeAux_map_of_good s.data.length s.data le_rfl hadj hhead).1
  have hheadc : ∀ c, s.data.head? = some c → isAlnumAscii c = true := by
    intro c hc
    cases hsd : s.data with
    | nil =>
      rw [hsd] at hc
      exact absurd hc (by simp)
    | cons a t =>
      rw [hsd, List.head?_cons] at hc
      injection hc with he2
      have hh3 := hhead
      rw [hsd] at hh3
      rw [← he2]
      exact hh3
  have hlastc : ∀ c, s.data.getLast? = some c → isAlnumAscii c = true := by
    intro c hc
    have hl2 := hlast
    rw [lastAlnum, hc] at hl2
    exact hl2
  have hmhead : ∀ c, (s.data.map subChar).head? = some c → isUnd c = false := by
    intro c hc
    rw [List.head?_map] at hc
    cases hh : s.data.head? with
    | none =>
      rw [hh] at hc
      exact absurd hc (by simp)
    | some d =>
      rw [hh] at hc
      simp only [Option.map_some'] at hc
      injection hc with he
      have hd : isAlnumAscii d = true := hheadc d hh
      rw [← he, subChar, if_pos hd]
      exact isUnd_eq_false_of_alnum hd
  have hmlast : ∀ c, (s.data.map subChar).getLast? = some c → isUnd c = false := by
    intro c hc
    rw [List.getLast?_map] at hc
    cases hh : s.data.getLast? with
    | none =>
      rw [hh] at hc
      exact absurd hc (by simp)
    | some d =>
      rw [hh] at hc
      simp only [Option.map_some'] at hc
      injection hc with he
      have hd : isAlnumAscii d = true := hlastc d hh
      rw [← he, subChar, if_pos hd]
      exact isUnd_eq_false_of_alnum hd
  have hstrip : stripBoth isUnd (s.data.map subChar) = s.data.map subChar :=
    stripBoth_eq_self isUnd _ hmhead hmlast
  have hpy : stripBoth pyIsSpace s.data = s.data := by
    apply stripBoth_eq_self
    · intro c hc
      exact pyIsSpace_eq_false_of_alnum (hheadc c hc)
    · intro c hc
      exact pyIsSpace_eq_false_of_alnum (hlastc c hc)
  have hpoint : ∀ c ∈ s.data,
      (fun c => let d := Char.toLower c; if d == ' ' then '_' else d) c =
        Char.toLower (subChar c) := by
    intro c hc
    rcases hchars c hc with h | h | h
    · have hsc : subChar c = c := by rw [subChar, if_pos h]
      rw [hsc]
      have hlow : isAlnumAscii (Char.toLower c) = true := by
        rw [isAlnumAscii_toLower]
        exact h
      have hns : (Char.toLower c == ' ') = false := by
        have hsp := pyIsSpace_eq_false_of_alnum hlow
        rw [pyIsSpace] at hsp
        simp only [Bool.or_eq_false_iff] at hsp
        exact hsp.1.1.1.1.1
      show (if (Char.toLower c == ' ') = true then '_' else Char.toLower c) = Char.toLower c
      rw [if_neg (by rw [hns]; simp)]
    · rw [h]
      decide
    · rw [h]
      decide
  simp only [clean_key, ascii_snake, hfil, hsnake, hstrip, hpy]
  congr 1
  rw [List.map_map]
  congr 1
  apply List.map_congr_left
  intro c hc
  have hp := hpoint c hc
  simpa using hp

/-- Witness for C2 on the organism name "Escherichia coli". -/
theorem C2_clean_key_agreement_witness :
    clean_key "Escherichia coli" = stripQualifier (ascii_snake "Escherichia coli") :=
  C2_clean_key_agreement "Escherichia coli" (by decide) (by decide) (by decide) (by decide)

end Vivli
